import Mathlib

/-!
Shallow embedding of the kd-tree implementation found in
src/data_struct_utils/kd_tree/mod.rs (the module used by the crate; the
file src/data_struct_utils/kd_tree.rs is an abandoned earlier variant that
is not part of the module tree).

Coordinates are modelled as rational numbers: every finite f64 is a
rational, and for the finite inputs the claims quantify over the code only
adds, subtracts, multiplies and compares coordinates.  The generic POINT
type is instantiated with the coordinate array itself, whose adapter
as_kdtree_point is the identity (the `[f64; DIM]` instance of KdTreePoint).
A Rust `Option<Box<Node<DIM>>>` child is modelled by `Tree`, whose `nil`
constructor stands for an absent child.
-/

namespace KdSpec

/-- Rust `struct Point<DIM>`: the stored coordinates plus the stable index
into the backing storage vector. -/
structure Point where
  position : List ℚ
  index : Nat
  deriving DecidableEq

/-- A node of the tree, with `nil` modelling an absent `Option<Box<Node>>`
child (Rust `struct Node<DIM>` holds a point and two optional children). -/
inductive Tree where
  | nil : Tree
  | node : Point → Tree → Tree → Tree
  deriving DecidableEq

/-- `Point::squared_distance`: fold of `(x - y) * (x - y)` over the zipped
coordinate lists. -/
def sqDist (p q : List ℚ) : ℚ :=
  (List.zip p q).foldl (fun acc xy => acc + (xy.1 - xy.2) * (xy.1 - xy.2)) 0

/-- The best-candidate update step of `Node::nearest` (the `map_or` with
`f64::INFINITY` followed by `if self_distance < best_distance { self } else
{ best.unwrap_or(self) }`): for finite coordinates a comparison against
INFINITY always succeeds, so the step keeps `self` when `best` is absent
and otherwise replaces `best` exactly when the squared distance of `self`
is strictly smaller. -/
def updateBest (target : List ℚ) (self : Point) (best : Option Point) : Point :=
  match best with
  | none => self
  | some b => if sqDist self.position target < sqDist b.position target then self else b

/-- `Node::nearest`.  The `nil` case returns `none`, modelling
`next.and_then(...)` over an absent child; on an actual node the function
mirrors the Rust body: update the best candidate, choose the near child by
comparing `target[axis]` with the node coordinate, search it, then search
the far child only when the squared hyperplane distance is strictly below
the squared distance of the current best (the early return ends with
`.or(Some(best))`). -/
def nearestAux (K : Nat) : Tree → List ℚ → Nat → Option Point → Option Point
  | .nil, _, _, _ => none
  | .node p l r, target, depth, best =>
    let best1 := updateBest target p best
    let axis := depth % K
    if target.getD axis 0 < p.position.getD axis 0 then
      let best2 := (nearestAux K l target (depth + 1) (some best1)).getD best1
      if (target.getD axis 0 - p.position.getD axis 0) ^ 2 < sqDist best2.position target then
        some ((nearestAux K r target (depth + 1) (some best2)).getD best2)
      else
        some best2
    else
      let best2 := (nearestAux K r target (depth + 1) (some best1)).getD best1
      if (target.getD axis 0 - p.position.getD axis 0) ^ 2 < sqDist best2.position target then
        some ((nearestAux K l target (depth + 1) (some best2)).getD best2)
      else
        some best2

/-- The best candidate right after the near-child search inside
`Node::nearest` (the value the pruning test is compared against):
`candidate.unwrap_or(best)` over the near-child recursion seeded with the
updated best. -/
def bestAfterNear (K : Nat) (near : Tree) (target : List ℚ) (depth : Nat)
    (b1 : Point) : Point :=
  (nearestAux K near target (depth + 1) (some b1)).getD b1

/-- The list of node points of a tree, root first. -/
def pointsOf : Tree → List Point
  | .nil => []
  | .node p l r => p :: (pointsOf l ++ pointsOf r)

/-- Insert an element into a list so that the keys stay ordered; helper for
the sorting model of the standard-library selection routine. -/
def insertByKey {α : Type} (key : α → ℚ) (a : α) : List α → List α
  | [] => [a]
  | b :: rest => if key a ≤ key b then a :: b :: rest else b :: insertByKey key a rest

/-- Insertion sort by a rational key; helper for the sorting model of the
standard-library selection routine. -/
def sortByKey {α : Type} (key : α → ℚ) : List α → List α
  | [] => []
  | a :: rest => insertByKey key a (sortByKey key rest)

/-- `Node::construct_kdtree`.  The call to `select_nth_unstable_by` (a Rust
standard-library linear-time selection with unspecified residual order) is
modelled by sorting the index range by the axis coordinate and splitting at
the middle position; this realises the documented contract of the routine:
the element at the middle position is in its sorted position, keys before
it are smaller or equal, keys after it are greater or equal, and the whole
range is a permutation of the input.  For finite coordinates the Rust
comparator `partial_cmp(..).unwrap_or(Equal)` is the total order of ℚ. -/
def construct_fuel (K : Nat) (values : List (List ℚ)) :
    Nat → List Nat → Nat → Tree
  | _, [], _ => .nil
  | 0, _ :: _, _ => .nil
  | fuel + 1, i0 :: irest, depth =>
    let axis := depth % K
    let median := (i0 :: irest).length / 2
    let sorted := sortByKey (fun i => (values.getD i []).getD axis 0) (i0 :: irest)
    let idx := sorted.getD median 0
    Tree.node ⟨values.getD idx [], idx⟩
      (construct_fuel K values fuel (sorted.take median) (depth + 1))
      (construct_fuel K values fuel (sorted.drop (median + 1)) (depth + 1))

/-- Entry point of the recursion, with fuel equal to the length of the
index range; each recursive call strictly shrinks the range, so the fuel
never runs out (theorem construct_eq_node recovers the intended
recurrence exactly, and the fuel value is irrelevant once sufficient). -/
def construct_kdtree (K : Nat) (values : List (List ℚ)) (indices : List Nat)
    (depth : Nat) : Tree :=
  construct_fuel K values indices.length indices depth

/-- `Node::add_node`: descend comparing the node coordinate with the new
coordinate along the axis `depth mod K`, going right exactly when the node
coordinate is strictly smaller; the `nil` case models the attachment of the
new leaf into an absent child slot. -/
def addNode (K : Nat) : Tree → Point → Nat → Tree
  | .nil, q, _ => .node q .nil .nil
  | .node p l r, q, depth =>
    if p.position.getD (depth % K) 0 < q.position.getD (depth % K) 0 then
      .node p l (addNode K r q (depth + 1))
    else
      .node p (addNode K l q (depth + 1)) r

/-- Rust `struct KdTree<DIM, POINT>`: the optional root node plus the
backing storage of domain points. -/
structure KdTree where
  root : Tree
  points : List (List ℚ)
  deriving DecidableEq

/-- `From<Vec<POINT>>::from`: a zero dimension yields an empty root,
otherwise the root is built over the index range `0..len`. -/
def fromVec (K : Nat) (value : List (List ℚ)) : KdTree :=
  if K = 0 then ⟨.nil, value⟩
  else ⟨construct_kdtree K value (List.range value.length) 0, value⟩

/-- `KdTree::add_point`: append to the backing storage with stable index
equal to the previous length, then attach through the root (or install the
new node as root when the tree is empty). -/
def addPoint (K : Nat) (t : KdTree) (pt : List ℚ) : KdTree :=
  let index := t.points.length
  let points := t.points ++ [pt]
  match t.root with
  | .nil => ⟨.node ⟨pt, index⟩ .nil .nil, points⟩
  | .node p l r => ⟨addNode K (.node p l r) ⟨pt, index⟩ 0, points⟩

/-- `KdTree::nearest_by_coord`: run the node search from the root and
resolve the resulting stable index in the backing storage. -/
def nearestByCoord (K : Nat) (t : KdTree) (coord : List ℚ) : Option (List ℚ) :=
  match t.root with
  | .nil => none
  | .node p l r =>
    (nearestAux K (.node p l r) coord 0 none).map (fun b => t.points.getD b.index [])

/-- `KdTree::nearest`: adapt the target point and delegate; for the
coordinate-array POINT instance the adapter is the identity. -/
def nearestPoint (K : Nat) (t : KdTree) (target : List ℚ) : Option (List ℚ) :=
  match t.root with
  | .nil => none
  | .node p l r =>
    (nearestAux K (.node p l r) target 0 none).map (fun b => t.points.getD b.index [])

/-- `Node::is_leaf`. -/
def isLeaf : Tree → Bool
  | .node _ .nil .nil => true
  | _ => false

/-- `Node::height`; the `nil` case yields 0, modelling
`map(|r| r.height(depth+1)).unwrap_or(0)` on an absent child. -/
def heightAux : Tree → Nat → Nat
  | .nil, _ => 0
  | .node p l r, depth =>
    if isLeaf (.node p l r) then depth + 1
    else max (heightAux r (depth + 1)) (heightAux l (depth + 1))

/-- `KdTree::height`. -/
def height (t : KdTree) : Nat := heightAux t.root 0

/-- The height recurrence stated by the spec: 0 for an empty tree, else one
plus the maximum of the child heights, an absent child contributing 0. -/
def refHeight : Tree → Nat
  | .nil => 0
  | .node _ l r => 1 + max (refHeight l) (refHeight r)

/-- `KdTree::is_empty`. -/
def isEmpty (t : KdTree) : Bool :=
  match t.root with
  | .nil => true
  | _ => false

/-- `KdTree::size`. -/
def size (t : KdTree) : Nat := t.points.length

/-- Panic-aware model of `Node::nearest`: in Rust the axis computation
`depth % DIM` panics (remainder by a zero divisor) when `DIM = 0`, so the
function returns `none` for a panic and `some` of the usual result
otherwise, following the evaluation order of the Rust body. -/
def nearestChecked (K : Nat) : Tree → List ℚ → Nat → Option Point → Option (Option Point)
  | .nil, _, _, _ => some none
  | .node p l r, target, depth, best =>
    let best1 := updateBest target p best
    if K = 0 then none
    else
      let axis := depth % K
      if target.getD axis 0 < p.position.getD axis 0 then
        match nearestChecked K l target (depth + 1) (some best1) with
        | none => none
        | some cand =>
          let best2 := cand.getD best1
          if (target.getD axis 0 - p.position.getD axis 0) ^ 2 < sqDist best2.position target then
            match nearestChecked K r target (depth + 1) (some best2) with
            | none => none
            | some cand2 => some (some (cand2.getD best2))
          else some (some best2)
      else
        match nearestChecked K r target (depth + 1) (some best1) with
        | none => none
        | some cand =>
          let best2 := cand.getD best1
          if (target.getD axis 0 - p.position.getD axis 0) ^ 2 < sqDist best2.position target then
            match nearestChecked K l target (depth + 1) (some best2) with
            | none => none
            | some cand2 => some (some (cand2.getD best2))
          else some (some best2)

/-- Panic-aware model of `KdTree::nearest_by_coord`: `some none` is the
regular no-result answer on an empty tree, `none` is a panic escaping from
the node search. -/
def nearestByCoordChecked (K : Nat) (t : KdTree) (coord : List ℚ) :
    Option (Option (List ℚ)) :=
  match t.root with
  | .nil => some none
  | .node p l r =>
    match nearestChecked K (.node p l r) coord 0 none with
    | none => none
    | some res => some (res.map (fun b => t.points.getD b.index []))

/-- The per-depth partition invariant of the tree: at depth d, with axis
`d mod K`, every point in the left subtree has axis coordinate at most the
node coordinate and every point in the right subtree has axis coordinate at
least the node coordinate, recursively. -/
def invariantAt (K : Nat) : Tree → Nat → Prop
  | .nil, _ => True
  | .node p l r, depth =>
    (∀ q ∈ pointsOf l, q.position.getD (depth % K) 0 ≤ p.position.getD (depth % K) 0) ∧
    (∀ q ∈ pointsOf r, p.position.getD (depth % K) 0 ≤ q.position.getD (depth % K) 0) ∧
    invariantAt K l (depth + 1) ∧ invariantAt K r (depth + 1)

/-- The trees this library can actually produce: built by `from` over some
point vector and extended by any sequence of `add_point` calls, under the
dimension contract (every coordinate array has length K) that the Rust
array type `[f64; DIM]` enforces statically. -/
inductive Reachable (K : Nat) : KdTree → Prop
  | base (pts : List (List ℚ)) (h : ∀ p ∈ pts, p.length = K) :
      Reachable K (fromVec K pts)
  | add (t : KdTree) (p : List ℚ) (ht : Reachable K t) (hp : p.length = K) :
      Reachable K (addPoint K t p)

/-! Lemmas about the sorting model of the selection routine. -/

theorem length_insertByKey {α : Type} (key : α → ℚ) (a : α) (l : List α) :
    (insertByKey key a l).length = l.length + 1 := by
  induction l with
  | nil => rfl
  | cons b rest ih =>
    simp only [insertByKey]
    split
    · simp
    · simp [ih]

theorem length_sortByKey {α : Type} (key : α → ℚ) (l : List α) :
    (sortByKey key l).length = l.length := by
  induction l with
  | nil => rfl
  | cons b rest ih => simp [sortByKey, length_insertByKey, ih]

theorem perm_insertByKey {α : Type} (key : α → ℚ) (a : α) (l : List α) :
    List.Perm (insertByKey key a l) (a :: l) := by
  induction l with
  | nil => exact List.Perm.refl _
  | cons b rest ih =>
    simp only [insertByKey]
    split
    · exact List.Perm.refl _
    · exact (ih.cons b).trans (List.Perm.swap a b rest)

theorem perm_sortByKey {α : Type} (key : α → ℚ) (l : List α) :
    List.Perm (sortByKey key l) l := by
  induction l with
  | nil => exact List.Perm.refl _
  | cons b rest ih => exact (perm_insertByKey key b _).trans (ih.cons b)

theorem mem_sortByKey {α : Type} (key : α → ℚ) (l : List α) (x : α) :
    x ∈ sortByKey key l ↔ x ∈ l :=
  (perm_sortByKey key l).mem_iff

theorem sorted_insertByKey {α : Type} (key : α → ℚ) (a : α) (l : List α)
    (hl : l.Pairwise (fun x y => key x ≤ key y)) :
    (insertByKey key a l).Pairwise (fun x y => key x ≤ key y) := by
  induction l with
  | nil => simp [insertByKey]
  | cons b rest ih =>
    rcases List.pairwise_cons.mp hl with ⟨hb, hrest⟩
    simp only [insertByKey]
    split
    case isTrue hc =>
      refine List.pairwise_cons.mpr ⟨?_, hl⟩
      intro y hy
      rcases List.mem_cons.mp hy with rfl | hy
      · exact hc
      · exact hc.trans (hb y hy)
    case isFalse hc =>
      refine List.pairwise_cons.mpr ⟨?_, ih hrest⟩
      intro y hy
      have hy2 : y ∈ a :: rest := (perm_insertByKey key a rest).mem_iff.mp hy
      rcases List.mem_cons.mp hy2 with rfl | hyr
      · exact le_of_not_le hc
      · exact hb y hyr

theorem sorted_sortByKey {α : Type} (key : α → ℚ) (l : List α) :
    (sortByKey key l).Pairwise (fun x y => key x ≤ key y) := by
  induction l with
  | nil => simp [sortByKey]
  | cons b rest ih => exact sorted_insertByKey key b _ ih

theorem map_insertByKey {α : Type} (key : α → ℚ) (a : α) (l : List α) :
    (insertByKey key a l).map key = insertByKey id (key a) (l.map key) := by
  induction l with
  | nil => rfl
  | cons b rest ih =>
    by_cases hc : key a ≤ key b
    · simp [insertByKey, hc]
    · simp [insertByKey, hc, ih]

theorem map_sortByKey {α : Type} (key : α → ℚ) (l : List α) :
    (sortByKey key l).map key = sortByKey id (l.map key) := by
  induction l with
  | nil => rfl
  | cons b rest ih => simp [sortByKey, map_insertByKey, ih]

theorem sorted_getD_le {α : Type} (key : α → ℚ) (l : List α) (d : α) (i j : Nat)
    (hij : i < j) (hj : j < l.length)
    (hs : l.Pairwise (fun x y => key x ≤ key y)) :
    key (l.getD i d) ≤ key (l.getD j d) := by
  rw [List.getD_eq_getElem l d (lt_trans hij hj), List.getD_eq_getElem l d hj]
  exact List.pairwise_iff_getElem.mp hs i j (lt_trans hij hj) hj hij

/-! Lemmas about the squared distance. -/

theorem foldl_add_sq (l : List (ℚ × ℚ)) (a : ℚ) :
    l.foldl (fun acc xy => acc + (xy.1 - xy.2) * (xy.1 - xy.2)) a
      = a + (l.map (fun xy => (xy.1 - xy.2) * (xy.1 - xy.2))).sum := by
  induction l generalizing a with
  | nil => simp
  | cons x rest ih =>
    simp only [List.foldl_cons, List.map_cons, List.sum_cons, ih]
    ring

theorem sqDist_eq_sum (p q : List ℚ) :
    sqDist p q = ((p.zip q).map (fun xy => (xy.1 - xy.2) * (xy.1 - xy.2))).sum := by
  simp [sqDist, foldl_add_sq]

theorem sqDist_nonneg (p q : List ℚ) : 0 ≤ sqDist p q := by
  rw [sqDist_eq_sum]
  apply List.sum_nonneg
  intro x hx
  rcases List.mem_map.mp hx with ⟨xy, _, rfl⟩
  exact mul_self_nonneg _

theorem axis_sq_le_sqDist (p q : List ℚ) (axis : Nat)
    (hp : axis < p.length) (hq : axis < q.length) :
    (p.getD axis 0 - q.getD axis 0) * (p.getD axis 0 - q.getD axis 0) ≤ sqDist p q := by
  rw [sqDist_eq_sum]
  set L := (p.zip q).map (fun xy => (xy.1 - xy.2) * (xy.1 - xy.2)) with hL
  have hlen : axis < L.length := by
    simp only [hL, List.length_map, List.length_zip]
    omega
  have hval : L.getD axis 0
      = (p.getD axis 0 - q.getD axis 0) * (p.getD axis 0 - q.getD axis 0) := by
    rw [List.getD_eq_getElem L 0 hlen, List.getD_eq_getElem p 0 hp,
      List.getD_eq_getElem q 0 hq]
    simp [hL]
  have hmem : L.getD axis 0 ∈ L := by
    rw [List.getD_eq_getElem L 0 hlen]
    exact List.getElem_mem hlen
  have hnn : ∀ x ∈ L, 0 ≤ x := by
    intro x hx
    rcases List.mem_map.mp hx with ⟨xy, _, rfl⟩
    exact mul_self_nonneg _
  calc (p.getD axis 0 - q.getD axis 0) * (p.getD axis 0 - q.getD axis 0)
      = L.getD axis 0 := hval.symm
    _ ≤ L.sum := List.single_le_sum hnn _ hmem

/-! Lemmas about the best-candidate update. -/

theorem updateBest_spec (target : List ℚ) (p : Point) (best : Option Point) :
    (updateBest target p best = p ∨ best = some (updateBest target p best)) ∧
    sqDist (updateBest target p best).position target ≤ sqDist p.position target ∧
    (∀ b, best = some b →
      sqDist (updateBest target p best).position target ≤ sqDist b.position target) := by
  cases best with
  | none => simp [updateBest]
  | some b =>
    simp only [updateBest]
    by_cases hc : sqDist p.position target < sqDist b.position target
    · rw [if_pos hc]
      refine ⟨Or.inl rfl, le_refl _, ?_⟩
      intro b2 hb2
      cases hb2
      exact le_of_lt hc
    · rw [if_neg hc]
      refine ⟨Or.inr rfl, le_of_not_lt hc, ?_⟩
      intro b2 hb2
      cases hb2
      exact le_refl _

/-! Basic facts about the node search. -/

theorem nearestAux_isSome (K : Nat) (p : Point) (l r : Tree) (target : List ℚ)
    (depth : Nat) (best : Option Point) :
    ∃ res, nearestAux K (.node p l r) target depth best = some res := by
  simp only [nearestAux]
  split
  · split
    · exact ⟨_, rfl⟩
    · exact ⟨_, rfl⟩
  · split
    · exact ⟨_, rfl⟩
    · exact ⟨_, rfl⟩

theorem option_getD_cases {P : Point → Prop} (o : Option Point) (b : Point)
    (ho : ∀ c, o = some c → P c) (hb : P b) : P (o.getD b) := by
  cases o with
  | none => exact hb
  | some c => exact ho c rfl

theorem branch_result_cases (K : Nat) (near far : Tree) (target : List ℚ) (depth : Nat)
    (b1 : Point) (gap : ℚ) (S : Point → Prop)
    (ihnear : ∀ b c, nearestAux K near target (depth + 1) b = some c →
      c ∈ pointsOf near ∨ b = some c)
    (ihfar : ∀ b c, nearestAux K far target (depth + 1) b = some c →
      c ∈ pointsOf far ∨ b = some c)
    (hS1 : S b1) (hSnear : ∀ c ∈ pointsOf near, S c) (hSfar : ∀ c ∈ pointsOf far, S c)
    (res : Point)
    (h : (if gap < sqDist ((nearestAux K near target (depth + 1) (some b1)).getD b1).position
            target then
          some ((nearestAux K far target (depth + 1)
              (some ((nearestAux K near target (depth + 1) (some b1)).getD b1))).getD
            ((nearestAux K near target (depth + 1) (some b1)).getD b1))
          else some ((nearestAux K near target (depth + 1) (some b1)).getD b1)) = some res) :
    S res := by
  set b2 := (nearestAux K near target (depth + 1) (some b1)).getD b1 with hb2
  have hSb2 : S b2 := by
    rw [hb2]
    refine option_getD_cases _ _ ?_ hS1
    intro c hc
    rcases ihnear (some b1) c hc with h2 | h2
    · exact hSnear c h2
    · rw [← Option.some.inj h2]
      exact hS1
  split at h
  · rw [← Option.some.inj h]
    refine option_getD_cases _ _ ?_ hSb2
    intro c hc
    rcases ihfar (some b2) c hc with h2 | h2
    · exact hSfar c h2
    · rw [← Option.some.inj h2]
      exact hSb2
  · rw [← Option.some.inj h]
    exact hSb2

theorem nearestAux_mem (K : Nat) (t : Tree) :
    ∀ (target : List ℚ) (depth : Nat) (best : Option Point) (res : Point),
    nearestAux K t target depth best = some res → res ∈ pointsOf t ∨ best = some res := by
  induction t with
  | nil =>
    intro target depth best res h
    simp [nearestAux] at h
  | node p l r ihl ihr =>
    intro target depth best res h
    have hS1 : (updateBest target p best) ∈ pointsOf (Tree.node p l r) ∨
        best = some (updateBest target p best) := by
      rcases (updateBest_spec target p best).1 with h1 | h1
      · exact Or.inl (by rw [h1]; simp [pointsOf])
      · exact Or.inr h1
    simp only [nearestAux] at h
    split at h
    · exact branch_result_cases K l r target depth (updateBest target p best) _
        (fun x => x ∈ pointsOf (Tree.node p l r) ∨ best = some x)
        (fun b c => ihl target (depth + 1) b c) (fun b c => ihr target (depth + 1) b c)
        hS1 (fun c hc => Or.inl (by simp [pointsOf, hc]))
        (fun c hc => Or.inl (by simp [pointsOf, hc])) res h
    · exact branch_result_cases K r l target depth (updateBest target p best) _
        (fun x => x ∈ pointsOf (Tree.node p l r) ∨ best = some x)
        (fun b c => ihr target (depth + 1) b c) (fun b c => ihl target (depth + 1) b c)
        hS1 (fun c hc => Or.inl (by simp [pointsOf, hc]))
        (fun c hc => Or.inl (by simp [pointsOf, hc])) res h

theorem nearestAux_none (K : Nat) (t : Tree) (target : List ℚ) (depth : Nat)
    (best : Option Point) (h : nearestAux K t target depth best = none) : t = .nil := by
  cases t with
  | nil => rfl
  | node p l r =>
    rcases nearestAux_isSome K p l r target depth best with ⟨res, hres⟩
    rw [hres] at h
    exact Option.noConfusion h

/-! Geometry of the pruning bound. -/

theorem sq_mono_far_right (tv pv qv : ℚ) (h1 : tv < pv) (h2 : pv ≤ qv) :
    (tv - pv) ^ 2 ≤ (tv - qv) ^ 2 := by
  nlinarith

theorem sq_mono_far_left (tv pv qv : ℚ) (h1 : pv ≤ tv) (h2 : qv ≤ pv) :
    (tv - pv) ^ 2 ≤ (tv - qv) ^ 2 := by
  nlinarith

/-! Optimality of the node search. -/

theorem branch_opt (K : Nat) (near far : Tree) (target : List ℚ) (depth : Nat)
    (p : Point) (best : Option Point) (res : Point)
    (ihnear : ∀ b c, nearestAux K near target (depth + 1) b = some c →
      (∀ q ∈ pointsOf near, sqDist c.position target ≤ sqDist q.position target) ∧
      (∀ b2, b = some b2 → sqDist c.position target ≤ sqDist b2.position target))
    (ihfar : ∀ b c, nearestAux K far target (depth + 1) b = some c →
      (∀ q ∈ pointsOf far, sqDist c.position target ≤ sqDist q.position target) ∧
      (∀ b2, b = some b2 → sqDist c.position target ≤ sqDist b2.position target))
    (hfargap : ∀ q ∈ pointsOf far,
      (target.getD (depth % K) 0 - p.position.getD (depth % K) 0) ^ 2
        ≤ sqDist q.position target)
    (h : (if (target.getD (depth % K) 0 - p.position.getD (depth % K) 0) ^ 2 <
            sqDist ((nearestAux K near target (depth + 1)
              (some (updateBest target p best))).getD (updateBest target p best)).position
              target
          then some ((nearestAux K far target (depth + 1)
              (some ((nearestAux K near target (depth + 1)
                (some (updateBest target p best))).getD (updateBest target p best)))).getD
              ((nearestAux K near target (depth + 1)
                (some (updateBest target p best))).getD (updateBest target p best)))
          else some ((nearestAux K near target (depth + 1)
              (some (updateBest target p best))).getD (updateBest target p best)))
        = some res) :
    sqDist res.position target ≤ sqDist p.position target ∧
    (∀ q ∈ pointsOf near, sqDist res.position target ≤ sqDist q.position target) ∧
    (∀ q ∈ pointsOf far, sqDist res.position target ≤ sqDist q.position target) ∧
    (∀ b, best = some b → sqDist res.position target ≤ sqDist b.position target) := by
  have hub := updateBest_spec target p best
  set b1 := updateBest target p best with hb1
  set b2 := (nearestAux K near target (depth + 1) (some b1)).getD b1 with hb2
  have hnearfacts :
      (∀ q ∈ pointsOf near, sqDist b2.position target ≤ sqDist q.position target) ∧
      sqDist b2.position target ≤ sqDist b1.position target := by
    cases hn : nearestAux K near target (depth + 1) (some b1) with
    | none =>
      have hnil : near = Tree.nil := nearestAux_none K near target (depth + 1) (some b1) hn
      subst hnil
      constructor
      · intro q hq
        simp [pointsOf] at hq
      · rw [hb2, hn]
        simp
    | some c =>
      have hc := ihnear (some b1) c hn
      have hb2c : b2 = c := by rw [hb2, hn]; rfl
      rw [hb2c]
      exact ⟨hc.1, hc.2 b1 rfl⟩
  split at h
  case isTrue hgap =>
    rw [← Option.some.inj h]
    cases hf : nearestAux K far target (depth + 1) (some b2) with
    | none =>
      have hnil : far = Tree.nil := nearestAux_none K far target (depth + 1) (some b2) hf
      subst hnil
      simp only [Option.getD_none]
      refine ⟨hnearfacts.2.trans hub.2.1, hnearfacts.1, ?_, ?_⟩
      · intro q hq
        simp [pointsOf] at hq
      · intro b hb
        exact hnearfacts.2.trans (hub.2.2 b hb)
    | some c =>
      have hc := ihfar (some b2) c hf
      simp only [Option.getD_some]
      have hcb2 : sqDist c.position target ≤ sqDist b2.position target := hc.2 b2 rfl
      refine ⟨hcb2.trans (hnearfacts.2.trans hub.2.1), ?_, hc.1, ?_⟩
      · intro q hq
        exact hcb2.trans (hnearfacts.1 q hq)
      · intro b hb
        exact hcb2.trans (hnearfacts.2.trans (hub.2.2 b hb))
  case isFalse hgap =>
    rw [← Option.some.inj h]
    refine ⟨hnearfacts.2.trans hub.2.1, hnearfacts.1, ?_, ?_⟩
    · intro q hq
      exact (not_lt.mp hgap).trans (hfargap q hq)
    · intro b hb
      exact hnearfacts.2.trans (hub.2.2 b hb)

theorem nearestAux_opt (K : Nat) (hK : 0 < K) (t : Tree) :
    ∀ (target : List ℚ) (depth : Nat) (best : Option Point) (res : Point),
    target.length = K →
    (∀ q ∈ pointsOf t, q.position.length = K) →
    invariantAt K t depth →
    nearestAux K t target depth best = some res →
    (∀ q ∈ pointsOf t, sqDist res.position target ≤ sqDist q.position target) ∧
    (∀ b, best = some b → sqDist res.position target ≤ sqDist b.position target) := by
  induction t with
  | nil =>
    intro target depth best res _ _ _ h
    exact absurd h (by simp [nearestAux])
  | node p l r ihl ihr =>
    intro target depth best res htl hdims hinv h
    obtain ⟨hInvL, hInvR, hIl, hIr⟩ := hinv
    have hdl : ∀ q ∈ pointsOf l, q.position.length = K := by
      intro q hq
      exact hdims q (by simp [pointsOf, hq])
    have hdr : ∀ q ∈ pointsOf r, q.position.length = K := by
      intro q hq
      exact hdims q (by simp [pointsOf, hq])
    have haxis : depth % K < K := Nat.mod_lt depth hK
    simp only [nearestAux] at h
    split at h
    case isTrue hcmp =>
      have hfargap : ∀ q ∈ pointsOf r,
          (target.getD (depth % K) 0 - p.position.getD (depth % K) 0) ^ 2
            ≤ sqDist q.position target := by
        intro q hq
        have hqv := hInvR q hq
        have h1 := sq_mono_far_right (target.getD (depth % K) 0)
          (p.position.getD (depth % K) 0) (q.position.getD (depth % K) 0) hcmp hqv
        have h2 := axis_sq_le_sqDist q.position target (depth % K)
          (by rw [hdr q hq]; exact haxis) (by rw [htl]; exact haxis)
        have h3 : (target.getD (depth % K) 0 - q.position.getD (depth % K) 0) ^ 2
            = (q.position.getD (depth % K) 0 - target.getD (depth % K) 0) *
              (q.position.getD (depth % K) 0 - target.getD (depth % K) 0) := by
          ring
        linarith
      have hres := branch_opt K l r target depth p best res
        (fun b c hc => ihl target (depth + 1) b c htl hdl hIl hc)
        (fun b c hc => ihr target (depth + 1) b c htl hdr hIr hc) hfargap h
      constructor
      · intro q hq
        simp only [pointsOf, List.mem_cons, List.mem_append] at hq
        rcases hq with rfl | hq | hq
        · exact hres.1
        · exact hres.2.1 q hq
        · exact hres.2.2.1 q hq
      · exact hres.2.2.2
    case isFalse hcmp =>
      have hfargap : ∀ q ∈ pointsOf l,
          (target.getD (depth % K) 0 - p.position.getD (depth % K) 0) ^ 2
            ≤ sqDist q.position target := by
        intro q hq
        have hqv := hInvL q hq
        have h1 := sq_mono_far_left (target.getD (depth % K) 0)
          (p.position.getD (depth % K) 0) (q.position.getD (depth % K) 0)
          (not_lt.mp hcmp) hqv
        have h2 := axis_sq_le_sqDist q.position target (depth % K)
          (by rw [hdl q hq]; exact haxis) (by rw [htl]; exact haxis)
        have h3 : (target.getD (depth % K) 0 - q.position.getD (depth % K) 0) ^ 2
            = (q.position.getD (depth % K) 0 - target.getD (depth % K) 0) *
              (q.position.getD (depth % K) 0 - target.getD (depth % K) 0) := by
          ring
        linarith
      have hres := branch_opt K r l target depth p best res
        (fun b c hc => ihr target (depth + 1) b c htl hdr hIr hc)
        (fun b c hc => ihl target (depth + 1) b c htl hdl hIl hc) hfargap h
      constructor
      · intro q hq
        simp only [pointsOf, List.mem_cons, List.mem_append] at hq
        rcases hq with rfl | hq | hq
        · exact hres.1
        · exact hres.2.2.1 q hq
        · exact hres.2.1 q hq
      · exact hres.2.2.2

/-! Lemmas about the construction. -/

theorem construct_nil (K : Nat) (values : List (List ℚ)) (depth : Nat) :
    construct_kdtree K values [] depth = .nil := rfl

theorem construct_fuel_irrel (K : Nat) (values : List (List ℚ)) :
    ∀ (f1 : Nat) (indices : List Nat) (depth : Nat) (f2 : Nat),
    indices.length ≤ f1 → indices.length ≤ f2 →
    construct_fuel K values f1 indices depth = construct_fuel K values f2 indices depth := by
  intro f1
  induction f1 with
  | zero =>
    intro indices depth f2 h1 h2
    have hnil : indices = [] := List.eq_nil_of_length_eq_zero (Nat.le_zero.mp h1)
    subst hnil
    cases f2 <;> rfl
  | succ m ih =>
    intro indices depth f2 h1 h2
    cases indices with
    | nil => cases f2 <;> rfl
    | cons i0 irest =>
      cases f2 with
      | zero => simp at h2
      | succ m2 =>
        show Tree.node _ _ _ = Tree.node _ _ _
        have hslen : (sortByKey (fun i => (values.getD i []).getD (depth % K) 0)
            (i0 :: irest)).length = (i0 :: irest).length := length_sortByKey _ _
        congr 1
        · apply ih
          · simp only [List.length_take, hslen]
            simp only [List.length_cons] at h1 ⊢
            omega
          · simp only [List.length_take, hslen]
            simp only [List.length_cons] at h2 ⊢
            omega
        · apply ih
          · simp only [List.length_drop, hslen]
            simp only [List.length_cons] at h1 ⊢
            omega
          · simp only [List.length_drop, hslen]
            simp only [List.length_cons] at h2 ⊢
            omega

theorem construct_eq_node (K : Nat) (values : List (List ℚ)) (indices : List Nat)
    (depth : Nat) (h : indices ≠ []) :
    construct_kdtree K values indices depth =
      Tree.node
        ⟨values.getD ((sortByKey (fun i => (values.getD i []).getD (depth % K) 0)
            indices).getD (indices.length / 2) 0) [],
          (sortByKey (fun i => (values.getD i []).getD (depth % K) 0)
            indices).getD (indices.length / 2) 0⟩
        (construct_kdtree K values
          ((sortByKey (fun i => (values.getD i []).getD (depth % K) 0)
            indices).take (indices.length / 2)) (depth + 1))
        (construct_kdtree K values
          ((sortByKey (fun i => (values.getD i []).getD (depth % K) 0)
            indices).drop (indices.length / 2 + 1)) (depth + 1)) := by
  cases indices with
  | nil => exact absurd rfl h
  | cons i0 irest =>
    have hslen : (sortByKey (fun i => (values.getD i []).getD (depth % K) 0)
        (i0 :: irest)).length = (i0 :: irest).length := length_sortByKey _ _
    have hstep : construct_kdtree K values (i0 :: irest) depth =
        Tree.node
          ⟨values.getD ((sortByKey (fun i => (values.getD i []).getD (depth % K) 0)
              (i0 :: irest)).getD ((i0 :: irest).length / 2) 0) [],
            (sortByKey (fun i => (values.getD i []).getD (depth % K) 0)
              (i0 :: irest)).getD ((i0 :: irest).length / 2) 0⟩
          (construct_fuel K values irest.length
            ((sortByKey (fun i => (values.getD i []).getD (depth % K) 0)
              (i0 :: irest)).take ((i0 :: irest).length / 2)) (depth + 1))
          (construct_fuel K values irest.length
            ((sortByKey (fun i => (values.getD i []).getD (depth % K) 0)
              (i0 :: irest)).drop ((i0 :: irest).length / 2 + 1)) (depth + 1)) := rfl
    rw [hstep]
    unfold construct_kdtree
    congr 1
    · apply construct_fuel_irrel
      · simp only [List.length_take, hslen, List.length_cons]
        omega
      · exact le_refl _
    · apply construct_fuel_irrel
      · simp only [List.length_drop, hslen, List.length_cons]
        omega
      · exact le_refl _

theorem pointsOf_construct (K : Nat) (values : List (List ℚ)) :
    ∀ (n : Nat) (indices : List Nat), indices.length ≤ n → ∀ (depth : Nat) (q : Point),
    (q ∈ pointsOf (construct_kdtree K values indices depth) ↔
      ∃ i ∈ indices, q = ⟨values.getD i [], i⟩) := by
  intro n
  induction n with
  | zero =>
    intro indices hlen depth q
    have hnil : indices = [] := List.eq_nil_of_length_eq_zero (Nat.le_zero.mp hlen)
    subst hnil
    rw [construct_nil]
    simp [pointsOf]
  | succ m ih =>
    intro indices hlen depth q
    by_cases hnil : indices = []
    · subst hnil
      rw [construct_nil]
      simp [pointsOf]
    · rw [construct_eq_node K values indices depth hnil]
      set key := fun i => (values.getD i []).getD (depth % K) 0 with hkey
      set s := sortByKey key indices with hs
      set med := indices.length / 2 with hmed
      have hslen : s.length = indices.length := by rw [hs]; exact length_sortByKey _ _
      have hpos : 0 < indices.length := List.length_pos.mpr hnil
      have hmlt : med < indices.length := by rw [hmed]; exact Nat.div_lt_self hpos (by omega)
      have hmlt2 : med < s.length := by rw [hslen]; exact hmlt
      have htakelen : (s.take med).length ≤ m := by
        simp only [List.length_take, hslen]
        omega
      have hdroplen : (s.drop (med + 1)).length ≤ m := by
        simp only [List.length_drop, hslen]
        omega
      simp only [pointsOf, List.mem_cons, List.mem_append]
      constructor
      · rintro (rfl | hq | hq)
        · refine ⟨s.getD med 0, ?_, rfl⟩
          have hmem : s.getD med 0 ∈ s := by
            rw [List.getD_eq_getElem _ _ hmlt2]
            exact List.getElem_mem hmlt2
          rw [hs] at hmem
          exact (mem_sortByKey key indices _).mp hmem
        · rcases (ih _ htakelen (depth + 1) q).mp hq with ⟨i, hi, hqe⟩
          have : i ∈ s := List.take_subset _ _ hi
          rw [hs] at this
          exact ⟨i, (mem_sortByKey key indices i).mp this, hqe⟩
        · rcases (ih _ hdroplen (depth + 1) q).mp hq with ⟨i, hi, hqe⟩
          have : i ∈ s := List.drop_subset _ _ hi
          rw [hs] at this
          exact ⟨i, (mem_sortByKey key indices i).mp this, hqe⟩
      · rintro ⟨i, hi, hqe⟩
        have his : i ∈ s := by
          rw [hs]
          exact (mem_sortByKey key indices i).mpr hi
        have hdecomp : s = s.take med ++ s.getD med 0 :: s.drop (med + 1) := by
          rw [List.getD_eq_getElem _ _ hmlt2, List.getElem_cons_drop _ _ hmlt2,
            List.take_append_drop]
        rw [hdecomp] at his
        rcases List.mem_append.mp his with hit | hic
        · exact Or.inr (Or.inl ((ih _ htakelen (depth + 1) q).mpr ⟨i, hit, hqe⟩))
        · rcases List.mem_cons.mp hic with rfl | hid
          · exact Or.inl hqe
          · exact Or.inr (Or.inr ((ih _ hdroplen (depth + 1) q).mpr ⟨i, hid, hqe⟩))

theorem invariantAt_construct (K : Nat) (values : List (List ℚ)) :
    ∀ (n : Nat) (indices : List Nat), indices.length ≤ n → ∀ (depth : Nat),
    invariantAt K (construct_kdtree K values indices depth) depth := by
  intro n
  induction n with
  | zero =>
    intro indices hlen depth
    have hnil : indices = [] := List.eq_nil_of_length_eq_zero (Nat.le_zero.mp hlen)
    subst hnil
    rw [construct_nil]
    simp [invariantAt]
  | succ m ih =>
    intro indices hlen depth
    by_cases hnil : indices = []
    · subst hnil
      rw [construct_nil]
      simp [invariantAt]
    · rw [construct_eq_node K values indices depth hnil]
      set key := fun i => (values.getD i []).getD (depth % K) 0 with hkey
      set s := sortByKey key indices with hs
      set med := indices.length / 2 with hmed
      have hslen : s.length = indices.length := by rw [hs]; exact length_sortByKey _ _
      have hpos : 0 < indices.length := List.length_pos.mpr hnil
      have hmlt : med < indices.length := by rw [hmed]; exact Nat.div_lt_self hpos (by omega)
      have hmlt2 : med < s.length := by rw [hslen]; exact hmlt
      have htakelen : (s.take med).length ≤ m := by
        simp only [List.length_take, hslen]
        omega
      have hdroplen : (s.drop (med + 1)).length ≤ m := by
        simp only [List.length_drop, hslen]
        omega
      have hsorted : s.Pairwise (fun x y => key x ≤ key y) := by
        rw [hs]
        exact sorted_sortByKey key indices
      refine ⟨?_, ?_, ih _ htakelen (depth + 1), ih _ hdroplen (depth + 1)⟩
      · intro q hq
        rcases (pointsOf_construct K values m _ htakelen (depth + 1) q).mp hq
          with ⟨i, hi, hqe⟩
        rcases List.mem_iff_getElem.mp hi with ⟨j, hj, hji⟩
        have hjlt : j < med := by
          have := hj
          simp only [List.length_take] at this
          omega
        have hieq : i = s.getD j 0 := by
          rw [← hji, List.getD_eq_getElem _ _ (lt_of_lt_of_le hjlt (le_of_lt hmlt2))]
          exact List.getElem_take s
        have hle : key (s.getD j 0) ≤ key (s.getD med 0) :=
          sorted_getD_le key s 0 j med hjlt hmlt2 hsorted
        rw [hqe, hieq]
        exact hle
      · intro q hq
        rcases (pointsOf_construct K values m _ hdroplen (depth + 1) q).mp hq
          with ⟨i, hi, hqe⟩
        rcases List.mem_iff_getElem.mp hi with ⟨j, hj, hji⟩
        have hjlen : med + 1 + j < s.length := by
          have := hj
          simp only [List.length_drop] at this
          omega
        have hieq : i = s.getD (med + 1 + j) 0 := by
          rw [← hji, List.getD_eq_getElem _ _ hjlen]
          exact List.getElem_drop s
        have hle : key (s.getD med 0) ≤ key (s.getD (med + 1 + j) 0) :=
          sorted_getD_le key s 0 med (med + 1 + j) (by omega) hjlen hsorted
        rw [hqe, hieq]
        exact hle

/-! Lemmas about insertion. -/

theorem pointsOf_addNode (K : Nat) (t : Tree) (q : Point) :
    ∀ (depth : Nat) (x : Point),
    x ∈ pointsOf (addNode K t q depth) ↔ x = q ∨ x ∈ pointsOf t := by
  induction t with
  | nil =>
    intro depth x
    simp [addNode, pointsOf]
  | node p l r ihl ihr =>
    intro depth x
    simp only [addNode]
    split
    · simp only [pointsOf, List.mem_cons, List.mem_append, ihr (depth + 1) x]
      tauto
    · simp only [pointsOf, List.mem_cons, List.mem_append, ihl (depth + 1) x]
      tauto

theorem invariantAt_addNode (K : Nat) (t : Tree) (q : Point) :
    ∀ (depth : Nat), invariantAt K t depth →
    invariantAt K (addNode K t q depth) depth := by
  induction t with
  | nil =>
    intro depth _
    simp [addNode, invariantAt, pointsOf]
  | node p l r ihl ihr =>
    intro depth hinv
    obtain ⟨hL, hR, hIl, hIr⟩ := hinv
    simp only [addNode]
    split
    case isTrue hlt =>
      refine ⟨hL, ?_, hIl, ihr (depth + 1) hIr⟩
      intro x hx
      rcases (pointsOf_addNode K r q (depth + 1) x).mp hx with rfl | hx
      · exact le_of_lt hlt
      · exact hR x hx
    case isFalse hlt =>
      refine ⟨?_, hR, ihl (depth + 1) hIl, hIr⟩
      intro x hx
      rcases (pointsOf_addNode K l q (depth + 1) x).mp hx with rfl | hx
      · exact not_lt.mp hlt
      · exact hL x hx

theorem addPoint_root_nil (K : Nat) (t : KdTree) (p : List ℚ) (h : t.root = .nil) :
    (addPoint K t p).root = .node ⟨p, t.points.length⟩ .nil .nil ∧
    (addPoint K t p).points = t.points ++ [p] := by
  simp [addPoint, h]

theorem addPoint_root_node (K : Nat) (t : KdTree) (p : List ℚ) (p0 : Point) (l r : Tree)
    (h : t.root = .node p0 l r) :
    (addPoint K t p).root = addNode K (.node p0 l r) ⟨p, t.points.length⟩ 0 ∧
    (addPoint K t p).points = t.points ++ [p] := by
  simp [addPoint, h]

theorem addPoint_points (K : Nat) (t : KdTree) (p : List ℚ) :
    (addPoint K t p).points = t.points ++ [p] := by
  cases hroot : t.root with
  | nil => exact (addPoint_root_nil K t p hroot).2
  | node p0 l r => exact (addPoint_root_node K t p p0 l r hroot).2

/-! Invariants of every reachable tree. -/

theorem reach_nodes (K : Nat) (t : KdTree) (ht : Reachable K t) :
    ∀ q ∈ pointsOf t.root, q.position.length = K ∧ q.index < t.points.length ∧
      t.points.getD q.index [] = q.position := by
  induction ht with
  | base pts h =>
    intro q hq
    by_cases hK0 : K = 0
    · simp [fromVec, hK0, pointsOf] at hq
    · simp only [fromVec, if_neg hK0] at hq ⊢
      rcases (pointsOf_construct K pts pts.length (List.range pts.length)
          (by simp) 0 q).mp hq with ⟨i, hi, rfl⟩
      have hilt : i < pts.length := List.mem_range.mp hi
      refine ⟨?_, hilt, rfl⟩
      have hmem : pts.getD i [] ∈ pts := by
        rw [List.getD_eq_getElem _ _ hilt]
        exact List.getElem_mem hilt
      exact h _ hmem
  | add t p ht hp ih =>
    intro q hq
    rw [addPoint_points K t p]
    cases hroot : t.root with
    | nil =>
      rw [(addPoint_root_nil K t p hroot).1] at hq
      simp only [pointsOf, List.append_nil, List.mem_cons, List.not_mem_nil,
        or_false] at hq
      subst hq
      refine ⟨hp, by simp, ?_⟩
      show (t.points ++ [p]).getD t.points.length [] = p
      rw [List.getD_eq_getElem _ _ (by simp)]
      exact List.getElem_concat_length t.points p t.points.length rfl (by simp)
    | node p0 l r =>
      rw [(addPoint_root_node K t p p0 l r hroot).1] at hq
      rcases (pointsOf_addNode K _ _ 0 q).mp hq with rfl | hq
      · refine ⟨hp, by simp, ?_⟩
        show (t.points ++ [p]).getD t.points.length [] = p
        rw [List.getD_eq_getElem _ _ (by simp)]
        exact List.getElem_concat_length t.points p t.points.length rfl (by simp)
      · have hold := ih q (by rw [hroot]; exact hq)
        refine ⟨hold.1, by simp; omega, ?_⟩
        rw [List.getD_append _ _ [] _ hold.2.1]
        exact hold.2.2

theorem reach_inv (K : Nat) (t : KdTree) (ht : Reachable K t) :
    invariantAt K t.root 0 := by
  induction ht with
  | base pts h =>
    by_cases hK0 : K = 0
    · simp [fromVec, hK0, invariantAt]
    · simp only [fromVec, if_neg hK0]
      exact invariantAt_construct K pts pts.length _ (by simp) 0
  | add t p ht hp ih =>
    cases hroot : t.root with
    | nil =>
      rw [(addPoint_root_nil K t p hroot).1]
      simp [invariantAt, pointsOf]
    | node p0 l r =>
      rw [(addPoint_root_node K t p p0 l r hroot).1]
      apply invariantAt_addNode
      rw [← hroot]
      exact ih

theorem reach_cover (K : Nat) (hK : 0 < K) (t : KdTree) (ht : Reachable K t) :
    ∀ j, j < t.points.length → (⟨t.points.getD j [], j⟩ : Point) ∈ pointsOf t.root := by
  induction ht with
  | base pts h =>
    intro j hj
    have hK0 : ¬ K = 0 := by omega
    simp only [fromVec, if_neg hK0] at hj ⊢
    exact (pointsOf_construct K pts pts.length _ (by simp) 0 _).mpr
      ⟨j, List.mem_range.mpr hj, rfl⟩
  | add t p ht hp ih =>
    intro j hj
    rw [addPoint_points K t p] at hj
    simp only [List.length_append, List.length_singleton] at hj
    cases hroot : t.root with
    | nil =>
      have hlen0 : t.points.length = 0 := by
        by_contra hne
        have h0 : 0 < t.points.length := Nat.pos_of_ne_zero hne
        have := ih 0 h0
        rw [hroot] at this
        simp [pointsOf] at this
      rw [(addPoint_root_nil K t p hroot).1, addPoint_points K t p]
      have hj0 : j = 0 := by omega
      subst hj0
      have hnilpts : t.points = [] := List.eq_nil_of_length_eq_zero hlen0
      rw [hnilpts]
      simp [pointsOf, hlen0, hnilpts]
    | node p0 l r =>
      rw [(addPoint_root_node K t p p0 l r hroot).1, addPoint_points K t p]
      refine (pointsOf_addNode K _ _ 0 _).mpr ?_
      rcases Nat.lt_succ_iff_lt_or_eq.mp hj with hjlt | hjeq
      · refine Or.inr ?_
        rw [List.getD_append _ _ [] _ hjlt, ← hroot]
        exact ih j hjlt
      · refine Or.inl ?_
        have hgd : (t.points ++ [p]).getD j [] = p := by
          rw [List.getD_eq_getElem _ _ (by simp; omega)]
          exact List.getElem_concat_length t.points p j hjeq (by simp; omega)
        rw [hgd, hjeq]

theorem reach_dims (K : Nat) (t : KdTree) (ht : Reachable K t) :
    ∀ x ∈ t.points, x.length = K := by
  induction ht with
  | base pts h =>
    intro x hx
    have hpts : (fromVec K pts).points = pts := by
      by_cases hK0 : K = 0 <;> simp [fromVec, hK0]
    rw [hpts] at hx
    exact h x hx
  | add t p ht hp ih =>
    intro x hx
    rw [addPoint_points K t p] at hx
    rcases List.mem_append.mp hx with hx | hx
    · exact ih x hx
    · rw [List.mem_singleton] at hx
      rw [hx]
      exact hp

/-! Query unfolding helpers. -/

theorem nearestByCoord_nil (K : Nat) (t : KdTree) (coord : List ℚ)
    (h : t.root = .nil) : nearestByCoord K t coord = none := by
  simp [nearestByCoord, h]

theorem nearestByCoord_node (K : Nat) (t : KdTree) (coord : List ℚ) (p0 : Point)
    (l r : Tree) (h : t.root = .node p0 l r) :
    nearestByCoord K t coord =
      (nearestAux K (.node p0 l r) coord 0 none).map
        (fun b => t.points.getD b.index []) := by
  simp [nearestByCoord, h]

theorem nearestPoint_nil (K : Nat) (t : KdTree) (coord : List ℚ)
    (h : t.root = .nil) : nearestPoint K t coord = none := by
  simp [nearestPoint, h]

theorem nearestPoint_node (K : Nat) (t : KdTree) (coord : List ℚ) (p0 : Point)
    (l r : Tree) (h : t.root = .node p0 l r) :
    nearestPoint K t coord =
      (nearestAux K (.node p0 l r) coord 0 none).map
        (fun b => t.points.getD b.index []) := by
  simp [nearestPoint, h]

/-! Claim theorems. -/

/-- C1: for every tree built via from and/or extended via add_point with
dimension K ≥ 1, whenever nearest_by_coord answers, the answer is a stored
point whose squared Euclidean distance to the target is at most the squared
distance from the target to every point stored in the tree (it agrees with
a brute-force linear scan on the distance it achieves). -/
theorem C1_nearest_by_coord_optimal (K : Nat) (t : KdTree) (hK : 0 < K)
    (ht : Reachable K t) (coord : List ℚ) (hc : coord.length = K)
    (res : List ℚ) (hres : nearestByCoord K t coord = some res) :
    res ∈ t.points ∧ ∀ q ∈ t.points, sqDist res coord ≤ sqDist q coord := by
  cases hroot : t.root with
  | nil =>
    rw [nearestByCoord_nil K t coord hroot] at hres
    exact Option.noConfusion hres
  | node p0 l r =>
    rw [nearestByCoord_node K t coord p0 l r hroot] at hres
    cases hb : nearestAux K (.node p0 l r) coord 0 none with
    | none =>
      rw [hb] at hres
      exact Option.noConfusion hres
    | some b =>
      rw [hb] at hres
      have hresb : res = t.points.getD b.index [] := (Option.some.inj hres).symm
      have hmem : b ∈ pointsOf t.root := by
        rw [hroot]
        rcases nearestAux_mem K _ coord 0 none b hb with h | h
        · exact h
        · exact Option.noConfusion h
      have hnode := reach_nodes K t ht b hmem
      have hdims : ∀ q ∈ pointsOf t.root, q.position.length = K :=
        fun q hq => (reach_nodes K t ht q hq).1
      have hinv := reach_inv K t ht
      have hopt := nearestAux_opt K hK (Tree.node p0 l r) coord 0 none b hc
        (by rw [← hroot]; exact hdims) (by rw [← hroot]; exact hinv) hb
      have hres_pos : res = b.position := by rw [hresb, hnode.2.2]
      constructor
      · rw [hresb, List.getD_eq_getElem _ _ hnode.2.1]
        exact List.getElem_mem hnode.2.1
      · intro q hq
        rcases List.mem_iff_getElem.mp hq with ⟨j, hj, hje⟩
        have hcov := reach_cover K hK t ht j hj
        rw [hroot] at hcov
        have hle := hopt.1 _ hcov
        rw [hres_pos]
        have hq2 : t.points.getD j [] = q := by
          rw [List.getD_eq_getElem _ _ hj]
          exact hje
        rw [← hq2]
        exact hle

/-- C1 witness at a concrete tree and query. -/
theorem C1_witness :
    [1, 2] ∈ (fromVec 2 [[1, 2], [4, 4], [5, 6], [7, 8]]).points ∧
    ∀ q ∈ (fromVec 2 [[1, 2], [4, 4], [5, 6], [7, 8]]).points,
      sqDist [1, 2] [2, 3] ≤ sqDist q [2, 3] :=
  C1_nearest_by_coord_optimal 2 (fromVec 2 [[1, 2], [4, 4], [5, 6], [7, 8]])
    (by decide) (Reachable.base _ (by decide)) [2, 3] (by decide) [1, 2]
    (by norm_num [nearestByCoord, fromVec, construct_kdtree, construct_fuel,
      sortByKey, insertByKey, nearestAux, updateBest, sqDist])

/-- C9: for every tree, height equals the reference recurrence, 0 for an
empty tree and otherwise one plus the maximum child height with an absent
child contributing 0; helper relating the Rust depth-passing computation to
the recurrence. -/
theorem heightAux_eq (t : Tree) : ∀ d : Nat, t ≠ .nil →
    heightAux t d = d + refHeight t := by
  induction t with
  | nil =>
    intro d h
    exact absurd rfl h
  | node p l r ihl ihr =>
    intro d _
    cases l with
    | nil =>
      cases r with
      | nil =>
        show d + 1 = d + refHeight (Tree.node p .nil .nil)
        simp only [refHeight]
        omega
      | node rp rl rr =>
        show max (heightAux (Tree.node rp rl rr) (d + 1)) (heightAux .nil (d + 1))
            = d + refHeight (Tree.node p .nil (Tree.node rp rl rr))
        rw [ihr (d + 1) (by simp), show heightAux Tree.nil (d + 1) = 0 from rfl]
        simp only [refHeight]
        omega
    | node lp ll lr =>
      cases r with
      | nil =>
        show max (heightAux .nil (d + 1)) (heightAux (Tree.node lp ll lr) (d + 1))
            = d + refHeight (Tree.node p (Tree.node lp ll lr) .nil)
        rw [ihl (d + 1) (by simp), show heightAux Tree.nil (d + 1) = 0 from rfl]
        simp only [refHeight]
        omega
      | node rp rl rr =>
        show max (heightAux (Tree.node rp rl rr) (d + 1))
            (heightAux (Tree.node lp ll lr) (d + 1))
            = d + refHeight (Tree.node p (Tree.node lp ll lr) (Tree.node rp rl rr))
        rw [ihl (d + 1) (by simp), ihr (d + 1) (by simp)]
        simp only [refHeight]
        omega

/-- C9: for every tree, the implemented height equals the reference
recurrence computed from the root. -/
theorem C9_height_ref (t : KdTree) : height t = refHeight t.root := by
  cases hroot : t.root with
  | nil => simp [height, hroot, heightAux, refHeight]
  | node p l r =>
    simp only [height, hroot]
    rw [heightAux_eq (Tree.node p l r) 0 (by simp)]
    omega

/-- C10: on every reachable tree, all stored node indices are within the
backing storage, so the storage lookup of the search result never goes out
of bounds. -/
theorem C10_index_bounds (K : Nat) (t : KdTree) (ht : Reachable K t) :
    (∀ q ∈ pointsOf t.root, q.index < t.points.length) ∧
    (∀ coord b, nearestAux K t.root coord 0 none = some b →
      b.index < t.points.length) := by
  constructor
  · intro q hq
    exact (reach_nodes K t ht q hq).2.1
  · intro coord b hb
    rcases nearestAux_mem K t.root coord 0 none b hb with h | h
    · exact (reach_nodes K t ht b h).2.1
    · exact Option.noConfusion h

/-- C10 witness at a concrete tree. -/
theorem C10_witness :
    (∀ q ∈ pointsOf (addPoint 2 (fromVec 2 [[1, 2], [3, 4]]) [5, 6]).root,
      q.index < (addPoint 2 (fromVec 2 [[1, 2], [3, 4]]) [5, 6]).points.length) ∧
    (∀ coord b, nearestAux 2 (addPoint 2 (fromVec 2 [[1, 2], [3, 4]]) [5, 6]).root
        coord 0 none = some b →
      b.index < (addPoint 2 (fromVec 2 [[1, 2], [3, 4]]) [5, 6]).points.length) :=
  C10_index_bounds 2 (addPoint 2 (fromVec 2 [[1, 2], [3, 4]]) [5, 6])
    (Reachable.add _ _ (Reachable.base _ (by decide)) (by decide))

/-- C2: the pruning guard of the search: with the near-side best candidate,
the far child is recursed into exactly when the squared hyperplane offset
is strictly smaller than the squared distance of that candidate to the
target, squared scale on both sides; when the guard fails the result does
not depend on the far subtree at all. -/
theorem C2_prune_squared (K : Nat) (p : Point) (l r : Tree) (target : List ℚ)
    (depth : Nat) (best : Option Point) (hK : 0 < K) :
    (target.getD (depth % K) 0 < p.position.getD (depth % K) 0 →
      (¬ ((target.getD (depth % K) 0 - p.position.getD (depth % K) 0) ^ 2 <
          sqDist (bestAfterNear K l target depth (updateBest target p best)).position
            target) →
        ∀ r2 : Tree, nearestAux K (Tree.node p l r2) target depth best =
          some (bestAfterNear K l target depth (updateBest target p best))) ∧
      (((target.getD (depth % K) 0 - p.position.getD (depth % K) 0) ^ 2 <
          sqDist (bestAfterNear K l target depth (updateBest target p best)).position
            target) →
        nearestAux K (Tree.node p l r) target depth best =
          some ((nearestAux K r target (depth + 1)
            (some (bestAfterNear K l target depth (updateBest target p best)))).getD
            (bestAfterNear K l target depth (updateBest target p best))))) ∧
    (¬ target.getD (depth % K) 0 < p.position.getD (depth % K) 0 →
      (¬ ((target.getD (depth % K) 0 - p.position.getD (depth % K) 0) ^ 2 <
          sqDist (bestAfterNear K r target depth (updateBest target p best)).position
            target) →
        ∀ l2 : Tree, nearestAux K (Tree.node p l2 r) target depth best =
          some (bestAfterNear K r target depth (updateBest target p best))) ∧
      (((target.getD (depth % K) 0 - p.position.getD (depth % K) 0) ^ 2 <
          sqDist (bestAfterNear K r target depth (updateBest target p best)).position
            target) →
        nearestAux K (Tree.node p l r) target depth best =
          some ((nearestAux K l target (depth + 1)
            (some (bestAfterNear K r target depth (updateBest target p best)))).getD
            (bestAfterNear K r target depth (updateBest target p best))))) := by
  constructor
  · intro hcmp
    simp only [bestAfterNear]
    constructor
    · intro hcond r2
      simp only [nearestAux]
      rw [if_pos hcmp, if_neg hcond]
    · intro hcond
      simp only [nearestAux]
      rw [if_pos hcmp, if_pos hcond]
  · intro hcmp
    simp only [bestAfterNear]
    constructor
    · intro hcond l2
      simp only [nearestAux]
      rw [if_neg hcmp, if_neg hcond]
    · intro hcond
      simp only [nearestAux]
      rw [if_neg hcmp, if_pos hcond]

/-- C2 witness: a concrete pruned search whose result ignores the far
subtree. -/
theorem C2_witness :
    nearestAux 1 (Tree.node ⟨[0], 0⟩ (Tree.node ⟨[100], 2⟩ Tree.nil Tree.nil)
        (Tree.node ⟨[9], 1⟩ Tree.nil Tree.nil)) [5] 0 none =
      some (bestAfterNear 1 (Tree.node ⟨[9], 1⟩ Tree.nil Tree.nil) [5] 0
        (updateBest [5] ⟨[0], 0⟩ none)) :=
  ((C2_prune_squared 1 ⟨[0], 0⟩ Tree.nil (Tree.node ⟨[9], 1⟩ Tree.nil Tree.nil)
      [5] 0 none (by decide)).2
    (by norm_num [List.getD])).1
    (by norm_num [bestAfterNear, nearestAux, updateBest, sqDist, List.getD])
    (Tree.node ⟨[100], 2⟩ Tree.nil Tree.nil)

/-- C3 counterexample: on an equal axis coordinate the insertion goes left,
not right as claimed: adding the point [0] to a tree already holding [0]
attaches the new node as the left child and leaves the right child absent. -/
theorem C3_counterexample :
    (addPoint 1 (fromVec 1 [[0]]) [0]).root =
      Tree.node ⟨[0], 0⟩ (Tree.node ⟨[0], 1⟩ Tree.nil Tree.nil) Tree.nil := by
  norm_num [addPoint, fromVec, construct_kdtree, construct_fuel, sortByKey,
    insertByKey, addNode]

/-- C3 amended: the descent of add_point compares along axis depth mod K
and follows the right child exactly when the new coordinate is strictly
greater than the node coordinate, the left child otherwise (on equality it
goes left), attaching a fresh leaf at the first absent slot; add_point on a
rooted tree delegates to this descent with the freshly assigned index. -/
theorem C3_add_routing (K : Nat) (p : Point) (l r : Tree) (q : Point) (depth : Nat) :
    (p.position.getD (depth % K) 0 < q.position.getD (depth % K) 0 →
      addNode K (Tree.node p l r) q depth = Tree.node p l (addNode K r q (depth + 1))) ∧
    (q.position.getD (depth % K) 0 ≤ p.position.getD (depth % K) 0 →
      addNode K (Tree.node p l r) q depth = Tree.node p (addNode K l q (depth + 1)) r) ∧
    addNode K Tree.nil q depth = Tree.node q Tree.nil Tree.nil ∧
    (∀ t : KdTree, ∀ p0 l0 r0, t.root = Tree.node p0 l0 r0 → ∀ pt,
      (addPoint K t pt).root = addNode K (Tree.node p0 l0 r0) ⟨pt, t.points.length⟩ 0) := by
  refine ⟨?_, ?_, rfl, ?_⟩
  · intro h
    simp only [addNode]
    rw [if_pos h]
  · intro h
    simp only [addNode]
    rw [if_neg (not_lt.mpr h)]
  · intro t p0 l0 r0 h pt
    exact (addPoint_root_node K t pt p0 l0 r0 h).1

/-- C3 witness: the equal-coordinate case routes to the left child. -/
theorem C3_witness :
    addNode 1 (Tree.node ⟨[0], 0⟩ Tree.nil Tree.nil) ⟨[0], 1⟩ 0 =
      Tree.node ⟨[0], 0⟩ (addNode 1 Tree.nil ⟨[0], 1⟩ 1) Tree.nil :=
  (C3_add_routing 1 ⟨[0], 0⟩ Tree.nil Tree.nil ⟨[0], 1⟩ 0).2.1
    (by norm_num [List.getD])

/-- C4: a zero-dimension tree built by from answers queries with no result,
but after add_point has installed a root the Rust query panics (remainder
by a zero divisor in the axis computation), modelled by the checked search
returning none instead of an answer. -/
theorem C4_zero_dim_query_panic :
    nearestByCoordChecked 0 (fromVec 0 [[], []]) [] = some none ∧
    nearestByCoordChecked 0 (addPoint 0 (fromVec 0 []) []) [] = none := by
  exact ⟨rfl, rfl⟩

/-- C5: the queries answer none exactly on the empty tree, and on a rooted
tree with K ≥ 1 they always answer with a stored point. -/
theorem C5_none_iff_empty (K : Nat) (t : KdTree) (coord : List ℚ) (hK : 0 < K)
    (ht : Reachable K t) :
    (nearestByCoord K t coord = none ↔ t.root = .nil) ∧
    (nearestPoint K t coord = none ↔ t.root = .nil) ∧
    (t.root ≠ .nil → ∃ j, j < t.points.length ∧
      nearestByCoord K t coord = some (t.points.getD j []) ∧
      nearestPoint K t coord = some (t.points.getD j [])) := by
  cases hroot : t.root with
  | nil =>
    refine ⟨?_, ?_, ?_⟩
    · simp [nearestByCoord_nil K t coord hroot, hroot]
    · simp [nearestPoint_nil K t coord hroot, hroot]
    · intro h
      exact absurd rfl h
  | node p0 l r =>
    rcases nearestAux_isSome K p0 l r coord 0 none with ⟨b, hb⟩
    have hbc : nearestByCoord K t coord = some (t.points.getD b.index []) := by
      rw [nearestByCoord_node K t coord p0 l r hroot, hb]
      rfl
    have hbp : nearestPoint K t coord = some (t.points.getD b.index []) := by
      rw [nearestPoint_node K t coord p0 l r hroot, hb]
      rfl
    have hmem : b ∈ pointsOf t.root := by
      rw [hroot]
      rcases nearestAux_mem K _ coord 0 none b hb with h | h
      · exact h
      · exact Option.noConfusion h
    have hidx := (reach_nodes K t ht b hmem).2.1
    refine ⟨?_, ?_, ?_⟩
    · rw [hbc]
      simp [hroot]
    · rw [hbp]
      simp [hroot]
    · intro _
      exact ⟨b.index, hidx, hbc, hbp⟩

/-- C5 witness at a concrete one-point tree. -/
theorem C5_witness :
    (nearestByCoord 2 (fromVec 2 [[1, 2]]) [3, 4] = none ↔
      (fromVec 2 [[1, 2]]).root = .nil) ∧
    (nearestPoint 2 (fromVec 2 [[1, 2]]) [3, 4] = none ↔
      (fromVec 2 [[1, 2]]).root = .nil) ∧
    ((fromVec 2 [[1, 2]]).root ≠ .nil → ∃ j, j < (fromVec 2 [[1, 2]]).points.length ∧
      nearestByCoord 2 (fromVec 2 [[1, 2]]) [3, 4] =
        some ((fromVec 2 [[1, 2]]).points.getD j []) ∧
      nearestPoint 2 (fromVec 2 [[1, 2]]) [3, 4] =
        some ((fromVec 2 [[1, 2]]).points.getD j [])) :=
  C5_none_iff_empty 2 (fromVec 2 [[1, 2]]) [3, 4] (by decide)
    (Reachable.base _ (by decide))

/-- C6: on every reachable tree with K ≥ 1 the partition invariant holds at
every node: the splitting axis at depth d is d mod K, every left-subtree
coordinate along that axis is at most the node coordinate, and the right
subtree satisfies the mirrored bound, recursively per subtree. -/
theorem C6_partition_invariant (K : Nat) (t : KdTree) (hK : 0 < K)
    (ht : Reachable K t) : invariantAt K t.root 0 :=
  reach_inv K t ht

/-- C6 witness at a concrete built-and-extended tree. -/
theorem C6_witness :
    invariantAt 2 (addPoint 2 (fromVec 2 [[1, 2], [3, 4]]) [3, 0]).root 0 :=
  C6_partition_invariant 2 (addPoint 2 (fromVec 2 [[1, 2], [3, 4]]) [3, 0])
    (by decide) (Reachable.add _ _ (Reachable.base _ (by decide)) (by decide))

/-- C7: the best-candidate update keeps the current node only on a strictly
smaller squared distance, keeps the earlier best on a tie, and adopts the
node when no best exists yet. -/
theorem C7_update_tie_policy (target : List ℚ) (p b : Point) :
    updateBest target p none = p ∧
    (sqDist p.position target < sqDist b.position target →
      updateBest target p (some b) = p) ∧
    (sqDist b.position target ≤ sqDist p.position target →
      updateBest target p (some b) = b) ∧
    (sqDist p.position target = sqDist b.position target →
      updateBest target p (some b) = b) := by
  refine ⟨rfl, ?_, ?_, ?_⟩
  · intro h
    simp only [updateBest]
    rw [if_pos h]
  · intro h
    simp only [updateBest]
    rw [if_neg (not_lt.mpr h)]
  · intro h
    simp only [updateBest]
    rw [if_neg (not_lt.mpr (le_of_eq h.symm))]

/-- C7 witness: equidistant candidates keep the earlier one. -/
theorem C7_witness :
    updateBest [0] ⟨[1], 0⟩ (some ⟨[-1], 1⟩) = ⟨[-1], 1⟩ :=
  (C7_update_tie_policy [0] ⟨[1], 0⟩ ⟨[-1], 1⟩).2.2.2
    (by norm_num [sqDist])

/-- C8: on a non-empty index range the constructed node stores as pivot the
element at the middle position of the range ordered by the axis coordinate:
its axis coordinate is the median-position value of the range along axis
depth mod K, and the node stores that coordinate together with its stable
index. -/
theorem C8_median_pivot (K : Nat) (values : List (List ℚ)) (indices : List Nat)
    (depth : Nat) (hK : 0 < K) (hne : indices ≠ []) :
    ∃ p lt rt, construct_kdtree K values indices depth = Tree.node p lt rt ∧
      p.index ∈ indices ∧
      p.position = values.getD p.index [] ∧
      p.position.getD (depth % K) 0 =
        (sortByKey id (indices.map
          (fun i => (values.getD i []).getD (depth % K) 0))).getD
          (indices.length / 2) 0 := by
  rw [construct_eq_node K values indices depth hne]
  set key := fun i => (values.getD i []).getD (depth % K) 0 with hkey
  set s := sortByKey key indices with hs
  set med := indices.length / 2 with hmed
  have hslen : s.length = indices.length := by
    rw [hs]
    exact length_sortByKey _ _
  have hpos : 0 < indices.length := List.length_pos.mpr hne
  have hmlt2 : med < s.length := by
    rw [hslen, hmed]
    exact Nat.div_lt_self hpos (by omega)
  refine ⟨_, _, _, rfl, ?_, rfl, ?_⟩
  · have hmem : s.getD med 0 ∈ s := by
      rw [List.getD_eq_getElem _ _ hmlt2]
      exact List.getElem_mem hmlt2
    rw [hs] at hmem
    exact (mem_sortByKey key indices _).mp hmem
  · have hmapped : s.map key = sortByKey id (indices.map key) := by
      rw [hs]
      exact map_sortByKey key indices
    have hmaplen : med < (s.map key).length := by
      rw [List.length_map]
      exact hmlt2
    have h1 : (s.map key).getD med 0 = key (s.getD med 0) := by
      rw [List.getD_eq_getElem _ _ hmaplen, List.getD_eq_getElem _ _ hmlt2]
      simp
    rw [← hmapped, h1]

/-- C8 witness on a concrete three-point one-dimensional range. -/
theorem C8_witness :
    ∃ p lt rt, construct_kdtree 1 [[3], [1], [2]] [0, 1, 2] 0 = Tree.node p lt rt ∧
      p.index ∈ [0, 1, 2] ∧
      p.position = [[3], [1], [2]].getD p.index [] ∧
      p.position.getD (0 % 1) 0 =
        (sortByKey id ([0, 1, 2].map
          (fun i => (([[3], [1], [2]] : List (List ℚ)).getD i []).getD (0 % 1) 0))).getD
          ([0, 1, 2].length / 2) 0 :=
  C8_median_pivot 1 [[3], [1], [2]] [0, 1, 2] 0 (by decide) (by decide)

end KdSpec
